import Mathlib

/-!
Verification of the `genjobs` job-transformation engine
(`prow/genjobs/cmd/genjobs/main.go`).

The Go program is shallowly embedded: Go maps (`map[string]string`,
`sets.String`) become association lists / lists of strings with
first-match lookup, Go strings are handled as Lean `String`s inspected
through character-list helpers, and Go runtime panics surface as
`Option.none`.  The regular-expression matcher used by the branch filter
(`regexp.MustCompile(pattern).MatchString(branch)`) is treated as an
abstract boolean predicate `rxMatch pattern branch`, since the claims
under study only concern how its results are combined.

Helper functions of the repository's `pkg/util` package
(`SplitOrgRepo`, `GetTopLevelOrg`, `RemoveHost`, `RenameFile`,
`HasExtension`) are not part of the provided sources; they are modelled
from the specification and carry a `Modelled from the spec:` note.
-/

namespace Genjobs

/-! ## Constants (main.go, `const` block) -/

def filenameSeparator : String := "."

def jobnameSeparator : String := "_"

def gitHost : String := "github.com"

def maxLabelLen : Nat := 63

def defaultModifier : String := "private"

/-! ## String helpers

Character-list implementations of the Go string primitives the engine
uses (`strings.HasPrefix`, `strings.TrimPrefix`, the `FieldsFunc` split
on `/`, suffix tests).  Working on `List Char` keeps every definition
kernel-computable; the names handled by genjobs are plain ASCII, where
Go's byte-wise operations and these character-wise ones agree. -/

/-- `listHasPref s pre` is true iff `pre` is a prefix of `s`. -/
def listHasPref : List Char → List Char → Bool
  | _, [] => true
  | [], _ :: _ => false
  | c :: cs, p :: ps => c == p && listHasPref cs ps

/-- Split a character list at every occurrence of `sep`, keeping empty
fields (the shape of Go's `strings.Split`). -/
def charSplit (sep : Char) : List Char → List (List Char)
  | [] => [[]]
  | c :: rest =>
    let r := charSplit sep rest
    if c == sep then [] :: r else (c :: r.headD []) :: r.tail

/-- Go `strings.HasPrefix`. -/
def strStartsWith (s pre : String) : Bool := listHasPref s.toList pre.toList

/-- True iff `suf` is a suffix of `s`. -/
def strEndsWith (s suf : String) : Bool := listHasPref s.toList.reverse suf.toList.reverse

/-- Go `strings.TrimPrefix`: drop `pre` from the front of `p` when present. -/
def trimPrefixStr (p pre : String) : String :=
  if strStartsWith p pre then String.mk (p.toList.drop pre.toList.length) else p

/-- Go `s[:n]` on an ASCII string: keep the first `n` characters. -/
def truncate (s : String) (n : Nat) : String := String.mk (s.toList.take n)

/-- Collapse consecutive `/` characters; the fragment of Go
`path/filepath.Clean` exercised by `filepath.Join` on the clean,
relative components genjobs produces. -/
def collapseSlashes : List Char → List Char
  | [] => []
  | [c] => [c]
  | c :: d :: rest =>
    if c == '/' && d == '/' then collapseSlashes (d :: rest)
    else c :: collapseSlashes (d :: rest)

/-- Go `filepath.Join`: join the non-empty components with `/` and
clean the result. -/
def joinPath (elems : List String) : String :=
  String.mk (collapseSlashes (String.intercalate "/" (elems.filter (fun s => !s.isEmpty))).toList)

/-- The `strings.FieldsFunc(strings.TrimPrefix(p, in), c == '/')` step of
`getOutPath`: the `/`-separated segments of `p` below the input root,
empty fields dropped. -/
def pathSegments (p inp : String) : List String :=
  (((trimPrefixStr p inp).toList |> charSplit '/').map String.mk).filter (fun s => s ≠ "")

/-- Modelled from the spec: `util.HasExtension(path, yamlExt)` with the
YAML-extension pattern `.(yml|yaml)$` — true iff the path ends in
`.yml` or `.yaml`. -/
def hasYamlExt (s : String) : Bool := strEndsWith s ".yml" || strEndsWith s ".yaml"

/-- Modelled from the spec: `util.RemoveHost` strips a leading
`github.com/` host qualifier from an organization identifier. -/
def removeHost (org : String) : String :=
  if strStartsWith org (gitHost ++ "/") then
    String.mk (org.toList.drop (gitHost ++ "/").toList.length)
  else org

/-- Modelled from the spec: `util.GetTopLevelOrg` extracts the first
path component of a (possibly slash-qualified) organization identifier. -/
def getTopLevelOrg (org : String) : String := String.mk (org.toList.takeWhile (fun c => c ≠ '/'))

/-- Modelled from the spec: `util.RenameFile` with pattern
`^<org>\b` — replace a leading occurrence of the (host-stripped)
original org in the filename by the (host-stripped) new org, anchored
at the start of the filename. -/
def renameFile (org : String) (file : String) (newOrg : String) : String :=
  if strStartsWith file org then newOrg ++ String.mk (file.toList.drop org.toList.length)
  else file

/-- Modelled from the spec: `util.SplitOrgRepo` splits a combined
`org/repo` identifier at the first slash. -/
def splitOrgRepo (s : String) : String × String :=
  match (charSplit '/' s.toList).map String.mk with
  | [] => ("", "")
  | [o] => (o, "")
  | o :: rest => (o, String.intercalate "/" rest)

/-! ## Association-list maps

Go `map[string]string` values become association lists with first-match
lookup; `setKV` is Go map assignment `m[k] = v`. -/

/-- Go map assignment `m[k] = v`: overwrite the first binding of `k`,
or append a new binding. -/
def setKV : List (String × String) → String → String → List (String × String)
  | [], k, v => [(k, v)]
  | (k', v') :: rest, k, v =>
    if k' == k then (k, v) :: rest else (k', v') :: setKV rest k v

/-! ## Options (`options` struct)

Only the fields read by the embedded functions are modelled; the field
defaults mirror the flag defaults of `parseFlags`.  The `sets.String`
allow/deny sets become lists of strings (`Has` = membership,
`len(s) > 0` = non-emptiness). -/

structure options where
  modifier : String := defaultModifier
  output : String := "."
  branches : List String := []
  selector : List (String × String) := []
  orgMap : List (String × String) := []
  jobWhitelist : List String := []
  jobBlacklist : List String := []
  repoWhitelist : List String := []
  repoBlacklist : List String := []
  jobType : List String := ["presubmit", "postsubmit", "periodic"]
  extraRefs : Bool := false
  resolve : Bool := false
  sshClone : Bool := false
  overrideSelector : Bool := false
  deriving Repr

/-! ## Filter (`validateOrgRepo`, `validateJob`, `isMatchBranch`) -/

/-- `validateOrgRepo` (main.go lines 148–156): the org must be mapped,
the repo must not be deny-listed, and a non-empty repo allow list must
contain the repo. -/
def validateOrgRepo (o : options) (org : String) (repo : String) : Bool :=
  if ((o.orgMap.lookup org).isNone || o.repoBlacklist.contains repo
      || (!o.repoWhitelist.isEmpty && !o.repoWhitelist.contains repo)) then
    false
  else
    true

/-- `isMatchBranch` (main.go lines 168–182).  `rxMatch pattern branch`
abstracts `regexp.MustCompile(pattern).MatchString(branch)`. -/
def isMatchBranch (rxMatch : String → String → Bool) (o : options)
    (patterns : List String) : Bool :=
  if o.branches.isEmpty then
    true
  else
    o.branches.any fun branch => patterns.any fun pattern => rxMatch pattern branch

/-- `validateJob` (main.go lines 159–165). -/
def validateJob (rxMatch : String → String → Bool) (o : options)
    (name : String) (patterns : List String) (jType : String) : Bool :=
  if (o.jobBlacklist.contains name || (!o.jobWhitelist.isEmpty && !o.jobWhitelist.contains name)
      || !isMatchBranch rxMatch o patterns || !o.jobType.contains jType) then
    false
  else
    true

/-! ## Extra refs and periodic jobs -/

/-- The fields of `prowjob.Refs` the engine reads or writes, plus
`baseRef` as a representative untouched field. -/
structure Refs where
  org : String
  repo : String
  baseRef : String
  cloneURI : String
  deriving Repr, DecidableEq

/-- The fields of a periodic job consulted by the periodic branch of
`Main` (main.go lines 690–711). -/
structure Periodic where
  name : String
  extraRefs : List Refs
  deriving Repr

/-- `convertOrgRepoStr` (main.go lines 195–205): remap a combined
`org/repo` identity, or return the empty string when validation fails.
A Go map index with a missing key yields the zero value `""`, hence the
`getD ""`. -/
def convertOrgRepoStr (o : options) (s : String) : String :=
  let org := (splitOrgRepo s).1
  let repo := (splitOrgRepo s).2
  if validateOrgRepo o org repo then
    String.intercalate "/" [(o.orgMap.lookup org).getD "", repo]
  else
    ""

/-- `updateExtraRefs` (main.go lines 436–448): remap the org (and, in
SSH-clone mode, the clone URI) of every ref that is forced or passes
`validateOrgRepo`; other refs are untouched. -/
def updateExtraRefs (o : options) (refs : List Refs) : List Refs :=
  refs.map fun ref =>
    if o.extraRefs || validateOrgRepo o ref.org ref.repo then
      let org := (o.orgMap.lookup ref.org).getD ""
      { ref with
        org := org
        cloneURI :=
          if o.sshClone then "git@" ++ gitHost ++ ":" ++ org ++ "/" ++ ref.repo ++ ".git"
          else ref.cloneURI }
    else ref

/-- The three guards of the periodic branch of `Main` (main.go lines
690–703): a periodic job is kept iff it passes `validateJob` (invoked
with an empty branch-pattern list), has a non-empty extra-ref list, and
not all of its extra refs fail `validateOrgRepo`. -/
def keepPeriodic (rxMatch : String → String → Bool) (o : options) (job : Periodic) : Bool :=
  validateJob rxMatch o job.name [] "periodic"
  && !job.extraRefs.isEmpty
  && !(job.extraRefs.all fun r => !validateOrgRepo o r.org r.repo)

/-! ## Claim C1 -/

/-- **C1.** For every configured branch list and every list of job
branch patterns, `isMatchBranch` returns true when the configured
branch list is empty; otherwise it returns true iff at least one
configured branch string rxMatch at least one of the job's branch
patterns (cross-product OR over configured branches and patterns),
where `rxMatch` abstracts Go's regular-expression match. -/
theorem isMatchBranch_iff (rxMatch : String → String → Bool) (o : options)
    (patterns : List String) :
    isMatchBranch rxMatch o patterns = true ↔
      (o.branches = [] ∨
        ∃ branch ∈ o.branches, ∃ pattern ∈ patterns, rxMatch pattern branch = true) := by
  unfold isMatchBranch
  rcases hb : o.branches with _ | ⟨b, bs⟩ <;>
    simp [hb, List.any_eq_true]

/-! ## Claim C9 -/

/-- **C9.** Whenever the configured branch list is non-empty, every
periodic job is excluded: `Main` invokes the job filter for periodic
jobs with an empty branch-pattern list, the branch match over a
non-empty configured branch list and an empty pattern list is false,
and hence `keepPeriodic` rejects every periodic job regardless of its
name or extra refs. -/
theorem periodic_dropped_of_branch_filter (rxMatch : String → String → Bool)
    (o : options) (h : o.branches ≠ []) :
    isMatchBranch rxMatch o [] = false ∧
      ∀ job : Periodic, keepPeriodic rxMatch o job = false := by
  have hm : isMatchBranch rxMatch o [] = false := by
    unfold isMatchBranch
    rcases hb : o.branches with _ | ⟨b, bs⟩
    · exact absurd hb h
    · simp [hb]
  refine ⟨hm, fun job => ?_⟩
  unfold keepPeriodic validateJob
  simp [hm]

theorem periodic_dropped_of_branch_filter_witness :
    isMatchBranch (fun _ _ => true) { branches := ["master"] } [] = false ∧
      keepPeriodic (fun _ _ => true) { branches := ["master"] }
        { name := "job", extraRefs := [] } = false := by
  have h := periodic_dropped_of_branch_filter (fun _ _ => true)
    { branches := ["master"] } (by decide)
  exact ⟨h.1, h.2 _⟩

/-! ## Claim C10 -/

/-- `validateOrgRepo` spelled out: the org must be mapped, the repo not
deny-listed, and the allow set must be empty or contain the repo. -/
theorem validateOrgRepo_iff (o : options) (org repo : String) :
    validateOrgRepo o org repo = true ↔
      (o.orgMap.lookup org).isSome = true ∧
      o.repoBlacklist.contains repo = false ∧
      (o.repoWhitelist = [] ∨ o.repoWhitelist.contains repo = true) := by
  unfold validateOrgRepo
  rcases hm : o.orgMap.lookup org with _ | v <;>
    rcases hb : o.repoBlacklist.contains repo <;>
      rcases hw : o.repoWhitelist with _ | ⟨w, ws⟩ <;>
        simp_all

/-- **C10.** A periodic job is appended to the output only if its
extra-ref list is non-empty and at least one of its extra refs has an
org present in the org mapping, a repo not in the repo deny set, and a
repo accepted by the (possibly empty) repo allow set. -/
theorem keepPeriodic_requires_valid_ref (rxMatch : String → String → Bool)
    (o : options) (job : Periodic) (h : keepPeriodic rxMatch o job = true) :
    job.extraRefs ≠ [] ∧
      ∃ r ∈ job.extraRefs,
        (o.orgMap.lookup r.org).isSome = true ∧
        o.repoBlacklist.contains r.repo = false ∧
        (o.repoWhitelist = [] ∨ o.repoWhitelist.contains r.repo = true) := by
  unfold keepPeriodic at h
  rw [Bool.and_eq_true, Bool.and_eq_true] at h
  obtain ⟨⟨_, hne⟩, hall⟩ := h
  constructor
  · intro hnil
    rw [hnil] at hne
    simp at hne
  · rw [Bool.not_eq_true'] at hall
    obtain ⟨r, hr, hp⟩ := List.all_eq_false.mp hall
    refine ⟨r, hr, ?_⟩
    have hv : validateOrgRepo o r.org r.repo = true := by
      rcases hvv : validateOrgRepo o r.org r.repo
      · rw [hvv] at hp; simp at hp
      · rfl
    exact (validateOrgRepo_iff o r.org r.repo).mp hv

theorem keepPeriodic_requires_valid_ref_witness :
    ([⟨"org-a", "repo-x", "master", ""⟩] : List Refs) ≠ [] ∧
      ∃ r ∈ ([⟨"org-a", "repo-x", "master", ""⟩] : List Refs),
        (({ orgMap := [("org-a", "org-b")] } : options).orgMap.lookup r.org).isSome = true ∧
        ({ orgMap := [("org-a", "org-b")] } : options).repoBlacklist.contains r.repo = false ∧
        (({ orgMap := [("org-a", "org-b")] } : options).repoWhitelist = [] ∨
          ({ orgMap := [("org-a", "org-b")] } : options).repoWhitelist.contains r.repo = true) := by
  exact keepPeriodic_requires_valid_ref (fun _ _ => false)
    { orgMap := [("org-a", "org-b")] }
    { name := "job", extraRefs := [⟨"org-a", "repo-x", "master", ""⟩] }
    (by decide)

/-! ## FieldUpdater: job name (`updateJobName`) -/

/-- `updateJobName` (main.go lines 291–305): append the
`jobnameSeparator + modifier` suffix after truncating the base name to
`maxLabelLen - len(suffix)` characters.  The bound is computed in `Int`
as in Go; when it is negative and the name needs truncation, the Go
slice expression `job.Name[:maxNameLen]` panics, modelled as `none`. -/
def updateJobName (o : options) (name : String) : Option String :=
  let suffix := if o.modifier ≠ "" then jobnameSeparator ++ o.modifier else ""
  let maxNameLen : Int := (maxLabelLen : Int) - suffix.length
  if (name.length : Int) > maxNameLen then
    if 0 ≤ maxNameLen then some (truncate name maxNameLen.toNat ++ suffix)
    else none
  else
    some (name ++ suffix)

theorem truncate_length (s : String) (n : Nat) :
    (truncate s n).length = min n s.length := by
  rcases s with ⟨l⟩
  simp [truncate, String.length_mk, String.toList]

/-! ## Claim C3 -/

/-- **C3.** The name updater appends the separator-plus-modifier suffix
after truncating trailing characters of the base name so that every
produced name has at most 63 characters; in particular a base name of
length 70 with modifier `"private"` is truncated to 55 characters and
the final name is `truncate name 55 ++ "_private"`, of length exactly
63. -/
theorem updateJobName_spec :
    (∀ (o : options) (name r : String),
        updateJobName o name = some r → r.length ≤ maxLabelLen) ∧
    (∀ (o : options) (name : String), o.modifier = "private" → name.length = 70 →
        updateJobName o name = some (truncate name 55 ++ "_private") ∧
        (truncate name 55 ++ "_private").length = 63) := by
  constructor
  · intro o name r h
    simp only [updateJobName, maxLabelLen] at h
    set S : String := if o.modifier ≠ "" then jobnameSeparator ++ o.modifier else "" with hS
    split at h
    · split at h
      · obtain rfl := Option.some.inj h
        rename_i h1 h2
        rw [String.length_append, truncate_length]
        have hmin := Nat.min_le_left ((63 - (S.length : Int)).toNat) name.length
        unfold maxLabelLen
        omega
      · exact Option.noConfusion h
    · obtain rfl := Option.some.inj h
      rename_i h1
      rw [String.length_append]
      unfold maxLabelLen
      omega
  · intro o name hmod hlen
    have hsuffix : (if o.modifier ≠ "" then jobnameSeparator ++ o.modifier else "") = "_private" := by
      rw [hmod]; decide
    have hslen : ("_private" : String).length = 8 := by decide
    have hname : updateJobName o name = some (truncate name 55 ++ "_private") := by
      simp only [updateJobName, hsuffix, hslen, hlen, maxLabelLen]
      norm_num
      rfl
    refine ⟨hname, ?_⟩
    rw [String.length_append, truncate_length, hlen, hslen]
    decide

theorem updateJobName_spec_witness :
    updateJobName { modifier := "private" } (String.mk (List.replicate 70 'a')) =
        some (truncate (String.mk (List.replicate 70 'a')) 55 ++ "_private") ∧
      (truncate (String.mk (List.replicate 70 'a')) 55 ++ "_private").length = 63 :=
  updateJobName_spec.2 { modifier := "private" } (String.mk (List.replicate 70 'a'))
    rfl (by decide)

/-! ## Claim C5 -/

theorem updateExtraRefs_length (o : options) (refs : List Refs) :
    (updateExtraRefs o refs).length = refs.length := by
  simp [updateExtraRefs]

/-- **C5.** For each extra ref: if the force-extra-refs flag is set OR
the ref's org/repo pair passes the org/repo filter, the ref's org is
replaced with its mapped value (the Go map default `""` when absent)
and, in SSH-clone mode, its clone URI is overwritten with
`git@<host>:<mappedOrg>/<repo>.git`; every ref that does not qualify is
left completely untouched, and no ref is dropped from the list. -/
theorem updateExtraRefs_spec (o : options) (refs : List Refs) :
    (updateExtraRefs o refs).length = refs.length ∧
    ∀ (i : Nat) (h : i < refs.length),
      ((o.extraRefs || validateOrgRepo o (refs.get ⟨i, h⟩).org (refs.get ⟨i, h⟩).repo) = true →
        (updateExtraRefs o refs).get ⟨i, (updateExtraRefs_length o refs).symm ▸ h⟩ =
          { refs.get ⟨i, h⟩ with
            org := (o.orgMap.lookup (refs.get ⟨i, h⟩).org).getD ""
            cloneURI :=
              if o.sshClone then
                "git@" ++ gitHost ++ ":" ++ (o.orgMap.lookup (refs.get ⟨i, h⟩).org).getD ""
                  ++ "/" ++ (refs.get ⟨i, h⟩).repo ++ ".git"
              else (refs.get ⟨i, h⟩).cloneURI }) ∧
      ((o.extraRefs || validateOrgRepo o (refs.get ⟨i, h⟩).org (refs.get ⟨i, h⟩).repo) = false →
        (updateExtraRefs o refs).get ⟨i, (updateExtraRefs_length o refs).symm ▸ h⟩ =
          refs.get ⟨i, h⟩) := by
  refine ⟨updateExtraRefs_length o refs, ?_⟩
  intro i h
  constructor
  · intro hc
    simp only [List.get_eq_getElem] at hc
    simp only [updateExtraRefs, List.get_eq_getElem, List.getElem_map]
    rw [if_pos hc]
  · intro hc
    simp only [List.get_eq_getElem] at hc
    simp only [updateExtraRefs, List.get_eq_getElem, List.getElem_map]
    rw [if_neg (by rw [hc]; simp)]

theorem updateExtraRefs_spec_witness :
    (updateExtraRefs { orgMap := [("org-a", "org-b")], sshClone := true }
        [⟨"org-a", "repo-x", "master", "uri"⟩]).get ⟨0, by decide⟩ =
      ⟨"org-b", "repo-x", "master", "git@github.com:org-b/repo-x.git"⟩ := by
  have h := ((updateExtraRefs_spec { orgMap := [("org-a", "org-b")], sshClone := true }
      [⟨"org-a", "repo-x", "master", "uri"⟩]).2 0 (by decide)).1 (by decide)
  exact h.trans (by decide)

/-! ## FieldUpdater: node selector (`updateNodeSelector`) -/

/-- `updateNodeSelector` (main.go lines 378–390), acting on the
`job.Spec.NodeSelector` field (a nil-able Go map, hence
`Option (List (String × String))`): when the configured selector is
non-empty, reset the mapping if override mode is on or no mapping
existed, then overlay every configured entry with map assignment. -/
def updateNodeSelector (o : options) (sel : Option (List (String × String))) :
    Option (List (String × String)) :=
  if o.selector.isEmpty then sel
  else
    let base := if o.overrideSelector || sel.isNone then [] else sel.getD []
    some (o.selector.foldl (fun m kv => setKV m kv.1 kv.2) base)

theorem lookup_setKV (m : List (String × String)) (k v k' : String) :
    (setKV m k v).lookup k' = if k' = k then some v else m.lookup k' := by
  induction m with
  | nil =>
    by_cases hk : k' = k
    · subst hk; simp [setKV, List.lookup]
    · simp [setKV, List.lookup, beq_false_of_ne hk, hk]
  | cons hd tl ih =>
    rcases hd with ⟨k0, v0⟩
    by_cases h0 : k0 = k
    · subst h0
      by_cases hk : k' = k0
      · subst hk; simp [setKV, List.lookup]
      · simp [setKV, List.lookup, beq_false_of_ne hk, hk]
    · by_cases hk : k' = k0
      · subst hk
        simp [setKV, List.lookup, beq_false_of_ne h0, h0, ih]
      · simp [setKV, List.lookup, beq_false_of_ne h0, beq_false_of_ne hk, hk, ih]

theorem lookup_eq_none_of_not_mem_keys (m : List (String × String)) (k : String)
    (h : k ∉ m.map Prod.fst) : m.lookup k = none := by
  induction m with
  | nil => simp [List.lookup]
  | cons hd tl ih =>
    rcases hd with ⟨k0, v0⟩
    simp only [List.map_cons, List.mem_cons] at h
    push_neg at h
    simp [List.lookup, beq_false_of_ne h.1, ih h.2]

theorem lookup_foldl_setKV (sel : List (String × String))
    (hnd : (sel.map Prod.fst).Nodup) (m : List (String × String)) (k : String) :
    ((sel.foldl (fun m kv => setKV m kv.1 kv.2) m).lookup k) =
      (sel.lookup k).or (m.lookup k) := by
  induction sel generalizing m with
  | nil => simp
  | cons hd rest ih =>
    rcases hd with ⟨k0, v0⟩
    simp only [List.map_cons, List.nodup_cons] at hnd
    simp only [List.foldl_cons]
    rw [ih hnd.2, lookup_setKV]
    by_cases hk : k = k0
    · subst hk
      rw [lookup_eq_none_of_not_mem_keys rest k hnd.1]
      simp [List.lookup]
    · simp [List.lookup, beq_false_of_ne hk, hk]

/-! ## Claim C7 -/

/-- **C7.** If override mode is enabled, or the job previously had no
selector, the selector mapping is replaced with an empty mapping before
the configured entries are overlaid; otherwise the configured entries
are overlaid onto the existing mapping, overwriting by key and keeping
other existing keys.  In particular, with override disabled, overlaying
`{zone: us}` onto `{disk: ssd}` yields `{disk: ssd, zone: us}`, and with
override enabled it yields exactly `{zone: us}`. -/
theorem updateNodeSelector_spec :
    (∀ (o : options) (sel : Option (List (String × String))),
      o.selector ≠ [] → (o.selector.map Prod.fst).Nodup →
      ((o.overrideSelector = true ∨ sel = none →
          ∃ m, updateNodeSelector o sel = some m ∧
            ∀ k, m.lookup k = o.selector.lookup k) ∧
        (o.overrideSelector = false → ∀ m0, sel = some m0 →
          ∃ m, updateNodeSelector o sel = some m ∧
            ∀ k, m.lookup k = (o.selector.lookup k).or (m0.lookup k)))) ∧
    updateNodeSelector { selector := [("zone", "us")] } (some [("disk", "ssd")]) =
      some [("disk", "ssd"), ("zone", "us")] ∧
    updateNodeSelector { selector := [("zone", "us")], overrideSelector := true }
        (some [("disk", "ssd")]) = some [("zone", "us")] := by
  refine ⟨?_, by decide, by decide⟩
  intro o sel hne hnd
  have hempty : o.selector.isEmpty = false := by
    simpa [List.isEmpty_iff] using hne
  have hrun : updateNodeSelector o sel =
      some (o.selector.foldl (fun m kv => setKV m kv.1 kv.2)
        (if o.overrideSelector || sel.isNone then [] else sel.getD [])) := by
    unfold updateNodeSelector
    rw [if_neg (by rw [hempty]; simp)]
  constructor
  · intro hover
    have hbase : (if o.overrideSelector || sel.isNone then [] else sel.getD []) =
        ([] : List (String × String)) := by
      rcases hover with h | h <;> simp [h]
    refine ⟨o.selector.foldl (fun m kv => setKV m kv.1 kv.2) [], ?_, ?_⟩
    · rw [hrun, hbase]
    · intro k
      rw [lookup_foldl_setKV o.selector hnd [] k]
      simp [List.lookup]
  · intro hover m0 hm0
    have hbase : (if o.overrideSelector || sel.isNone then [] else sel.getD []) = m0 := by
      simp [hover, hm0]
    refine ⟨o.selector.foldl (fun m kv => setKV m kv.1 kv.2) m0, ?_, ?_⟩
    · rw [hrun, hbase]
    · intro k
      rw [lookup_foldl_setKV o.selector hnd m0 k]

theorem updateNodeSelector_spec_witness :
    ∃ m, updateNodeSelector { selector := [("zone", "us")] } (some [("disk", "ssd")]) =
        some m ∧ m.lookup "disk" = some "ssd" ∧ m.lookup "zone" = some "us" := by
  obtain ⟨m, hm, hk⟩ :=
    ((updateNodeSelector_spec.1 { selector := [("zone", "us")] } (some [("disk", "ssd")])
      (by decide) (by decide)).2 rfl [("disk", "ssd")] rfl)
  refine ⟨m, hm, ?_, ?_⟩
  · rw [hk "disk"]; decide
  · rw [hk "zone"]; decide

/-! ## PathRouter (`getOutPath`) -/

/-- Go `filepath.Base`: the last non-empty `/`-separated component of a
path (`"."` for an empty path — the fragment relevant here). -/
def baseNameStr (p : String) : String :=
  (((charSplit '/' p.toList).map String.mk).filter (fun s => s ≠ "")).getLastD "."

/-- `getOutPath` (main.go lines 451–489): derive the output path from
the destination root, the input root and the current file path.  The
empty string is the "no output / skip" signal. -/
def getOutPath (o : options) (p : String) (inp : String) : String :=
  let segments := pathSegments p inp
  if hasYamlExt o.output then
    o.output
  else if 3 ≤ segments.length then
    let org := segments.getD (segments.length - 3) ""
    let repo := segments.getD (segments.length - 2) ""
    let file := segments.getD (segments.length - 1) ""
    match o.orgMap.lookup org with
    | some newOrg =>
        joinPath [o.output, getTopLevelOrg newOrg, repo,
          renameFile (removeHost org) file (removeHost newOrg)]
    | none => ""
  else if segments.length = 2 then
    let org := segments.getD (segments.length - 2) ""
    let file := segments.getD (segments.length - 1) ""
    match o.orgMap.lookup org with
    | some newOrg =>
        joinPath [o.output, getTopLevelOrg newOrg,
          renameFile (removeHost org) file (removeHost newOrg)]
    | none => ""
  else if segments.length = 1 then
    let file := segments.getD 0 ""
    if !strStartsWith file o.modifier then
      joinPath [o.output, o.modifier ++ filenameSeparator ++ file]
    else ""
  else
    let file := baseNameStr inp
    if !strStartsWith file o.modifier then
      joinPath [o.output, o.modifier ++ filenameSeparator ++ file]
    else ""

/-! ## Claim C2 -/

/-- **C2.** For every input file whose part below the input root has 3
or more slash-delimited segments, with the last three read as
`[org, repo, file]`: if `org` is mapped, the output path is
`destinationRoot/<top-level(mappedOrg)>/<repo>/<file with a leading
host-stripped org occurrence renamed to the host-stripped mapped org>`;
otherwise no output path is produced (empty string). -/
theorem getOutPath_three_segments (o : options) (p inp : String)
    (hout : hasYamlExt o.output = false)
    (org repo file : String)
    (horg : org = (pathSegments p inp).getD ((pathSegments p inp).length - 3) "")
    (hrepo : repo = (pathSegments p inp).getD ((pathSegments p inp).length - 2) "")
    (hfile : file = (pathSegments p inp).getD ((pathSegments p inp).length - 1) "")
    (h3 : 3 ≤ (pathSegments p inp).length) :
    (∀ newOrg, o.orgMap.lookup org = some newOrg →
        getOutPath o p inp =
          joinPath [o.output, getTopLevelOrg newOrg, repo,
            renameFile (removeHost org) file (removeHost newOrg)]) ∧
    (o.orgMap.lookup org = none → getOutPath o p inp = "") := by
  subst horg hrepo hfile
  constructor
  · intro newOrg hn
    simp only [getOutPath]
    rw [if_neg (by rw [hout]; simp), if_pos h3, hn]
  · intro hn
    simp only [getOutPath]
    rw [if_neg (by rw [hout]; simp), if_pos h3, hn]

/-- The concrete routing example: input `/in/org-a/repo-x/job.yaml`
below root `/in`, mapping `org-a → org-b`, output root `out/`, gives
`out/org-b/repo-x/job.yaml`. -/
theorem getOutPath_three_segments_witness :
    getOutPath { orgMap := [("org-a", "org-b")], output := "out/" }
        "/in/org-a/repo-x/job.yaml" "/in" = "out/org-b/repo-x/job.yaml" := by
  have h := (getOutPath_three_segments
      { orgMap := [("org-a", "org-b")], output := "out/" }
      "/in/org-a/repo-x/job.yaml" "/in" (by decide)
      "org-a" "repo-x" "job.yaml" (by decide) (by decide) (by decide) (by decide)).1
    "org-b" (by decide)
  exact h.trans (by decide)

/-! ## Claim C6 -/

/-- **C6.** For every organization not present in the org mapping:
the org/repo remapping returns the empty identity string, and (when the
configured destination is not itself a single yaml file path) the path
router yields no output path for inputs of 2 or 3-or-more segments
whose org segment is that organization. -/
theorem unmapped_org_yields_empty (o : options) (s p inp : String)
    (hout : hasYamlExt o.output = false) :
    (o.orgMap.lookup (splitOrgRepo s).1 = none → convertOrgRepoStr o s = "") ∧
    ((pathSegments p inp).length = 2 →
      o.orgMap.lookup ((pathSegments p inp).getD 0 "") = none →
      getOutPath o p inp = "") ∧
    (3 ≤ (pathSegments p inp).length →
      o.orgMap.lookup ((pathSegments p inp).getD ((pathSegments p inp).length - 3) "") = none →
      getOutPath o p inp = "") := by
  refine ⟨?_, ?_, ?_⟩
  · intro h
    simp [convertOrgRepoStr, validateOrgRepo, h]
  · intro h2 hn
    simp only [getOutPath]
    rw [if_neg (by rw [hout]; simp), if_neg (by omega), if_pos h2]
    rw [show (pathSegments p inp).length - 2 = 0 by omega, hn]
  · intro h3 hn
    simp only [getOutPath]
    rw [if_neg (by rw [hout]; simp), if_pos h3, hn]

theorem unmapped_org_yields_empty_witness :
    convertOrgRepoStr { output := "out" } "org-a/repo-x" = "" ∧
      getOutPath { output := "out" } "/in/org-a/repo-x/job.yaml" "/in" = "" := by
  have h := unmapped_org_yields_empty { output := "out" } "org-a/repo-x"
    "/in/org-a/repo-x/job.yaml" "/in" (by decide)
  exact ⟨h.1 (by decide), h.2.2 (by decide) (by decide)⟩

/-! ## PresetResolver data model

The fragments of `v1.PodSpec` / `config.Preset` that `mergePreset`
reads or writes: environment variables (name/value), volumes and volume
mounts (name plus an opaque payload standing for the remaining
fields, which the Go code copies wholesale). -/

structure EnvVar where
  name : String
  value : String
  deriving Repr, DecidableEq

structure Volume where
  name : String
  source : String
  deriving Repr, DecidableEq

structure VolumeMount where
  name : String
  mountPath : String
  deriving Repr, DecidableEq

structure Container where
  env : List EnvVar
  volumeMounts : List VolumeMount
  deriving Repr, DecidableEq

structure PodSpec where
  containers : List Container
  volumes : List Volume
  nodeSelector : Option (List (String × String)) := none
  deriving Repr, DecidableEq

structure Preset where
  labels : List (String × String)
  env : List EnvVar
  volumes : List Volume
  volumeMounts : List VolumeMount
  deriving Repr

/-- The label-gate loop of `mergePreset` (main.go lines 228–232): every
gated key must exist in the job's labels with an identical value. -/
def presetMatches (preset : Preset) (labels : List (String × String)) : Bool :=
  preset.labels.all fun lv => labels.lookup lv.1 == some lv.2

/-- The env-merge inner loop of `mergePreset` (main.go lines 236–245):
overwrite the value of the first variable of the same name, else append
the preset entry at the end. -/
def envUpsert (e : EnvVar) : List EnvVar → List EnvVar
  | [] => [e]
  | x :: xs =>
    if x.name == e.name then { x with value := e.value } :: xs
    else x :: envUpsert e xs

/-- The volume / volume-mount merge loops of `mergePreset` (main.go
lines 248–274): replace the first entry of the same key wholesale, else
append. -/
def upsertNamed {α : Type} (key : α → String) (e : α) : List α → List α
  | [] => [e]
  | x :: xs =>
    if key x == key e then e :: xs
    else x :: upsertNamed key e xs

/-- Iterated upsert over a list of preset entries, in list order. -/
def foldUpsert {α : Type} (key : α → String) (es l : List α) : List α :=
  es.foldl (fun acc e => upsertNamed key e acc) l

def mergePresetEnv (es : List EnvVar) (env : List EnvVar) : List EnvVar :=
  es.foldl (fun acc e => envUpsert e acc) env

def mergePresetVolumes (vs : List Volume) (vols : List Volume) : List Volume :=
  foldUpsert Volume.name vs vols

def mergePresetMounts (ms : List VolumeMount) (mounts : List VolumeMount) : List VolumeMount :=
  foldUpsert VolumeMount.name ms mounts

/-- `mergePreset` (main.go lines 227–275), acting on the job's
`Spec` (the nil-guard on `job.Spec` lives in `resolvePresets`): if the
label-gate passes, merge the preset's env entries into every container,
its volumes into the top-level volume list, and its volume mounts into
every container; otherwise leave the spec unchanged. -/
def mergePreset (labels : List (String × String)) (spec : PodSpec) (preset : Preset) : PodSpec :=
  if presetMatches preset labels then
    let spec1 : PodSpec :=
      { spec with containers := spec.containers.map fun c =>
          { c with env := mergePresetEnv preset.env c.env } }
    let spec2 : PodSpec := { spec1 with volumes := mergePresetVolumes preset.volumes spec1.volumes }
    { spec2 with containers := spec2.containers.map fun c =>
        { c with volumeMounts := mergePresetMounts preset.volumeMounts c.volumeMounts } }
  else spec

/-- `resolvePresets` (main.go lines 278–288): skip when preset
resolution is disabled or the job has no runtime specification,
otherwise merge all presets in list order. -/
def resolvePresets (o : options) (labels : List (String × String))
    (spec : Option PodSpec) (presets : List Preset) : Option PodSpec :=
  if !o.resolve then spec
  else spec.map fun s => presets.foldl (fun acc preset => mergePreset labels acc preset) s

/-! ### Generic upsert lemmas -/

theorem envUpsert_eq_upsertNamed (e : EnvVar) (l : List EnvVar) :
    envUpsert e l = upsertNamed EnvVar.name e l := by
  induction l with
  | nil => rfl
  | cons x xs ih =>
    cases hx : x.name == e.name with
    | false => simp [envUpsert, upsertNamed, hx, ih]
    | true =>
      have hn : x.name = e.name := eq_of_beq hx
      simp only [envUpsert, upsertNamed, hx, if_true]
      cases e
      cases x
      simp_all

theorem mergePresetEnv_eq (es env : List EnvVar) :
    mergePresetEnv es env = foldUpsert EnvVar.name es env := by
  unfold mergePresetEnv foldUpsert
  congr 1
  funext acc e
  exact envUpsert_eq_upsertNamed e acc

theorem upsertNamed_idem {α : Type} (key : α → String) (e : α) (l : List α) :
    upsertNamed key e (upsertNamed key e l) = upsertNamed key e l := by
  induction l with
  | nil => simp [upsertNamed]
  | cons x xs ih =>
    cases hx : key x == key e with
    | true => simp [upsertNamed, hx]
    | false => simp [upsertNamed, hx, ih]

theorem upsertNamed_absorb_of_ne {α : Type} (key : α → String) (e f : α)
    (hne : key f ≠ key e) (l : List α) (habs : upsertNamed key e l = l) :
    upsertNamed key e (upsertNamed key f l) = upsertNamed key f l := by
  induction l with
  | nil => exact absurd habs (by simp [upsertNamed])
  | cons x xs ih =>
    cases hx : key x == key e with
    | true =>
      have h := habs
      simp only [upsertNamed, hx, if_true] at h
      injection h with hex _
      have hxf : (key x == key f) = false :=
        beq_false_of_ne (by rw [eq_of_beq hx]; exact Ne.symm hne)
      simp [upsertNamed, hx, hxf, hex]
    | false =>
      have h := habs
      simp only [upsertNamed, hx, if_false] at h
      injection h with _ habs'
      cases hf : key x == key f with
      | true =>
        have hfe : (key f == key e) = false := beq_false_of_ne hne
        simp [upsertNamed, hf, hfe, habs']
      | false =>
        simp [upsertNamed, hf, hx, ih habs']

theorem foldUpsert_absorb {α : Type} (key : α → String) (e : α) (es : List α)
    (hes : ∀ f ∈ es, key f ≠ key e) (l : List α) (habs : upsertNamed key e l = l) :
    upsertNamed key e (foldUpsert key es l) = foldUpsert key es l := by
  induction es generalizing l with
  | nil => simpa [foldUpsert] using habs
  | cons f fs ih =>
    simp only [foldUpsert, List.foldl_cons]
    exact ih (fun g hg => hes g (List.mem_cons_of_mem f hg)) (upsertNamed key f l)
      (upsertNamed_absorb_of_ne key e f (hes f (List.mem_cons_self f fs)) l habs)

theorem foldUpsert_mem_absorb {α : Type} (key : α → String) (es : List α)
    (hnd : (es.map key).Nodup) (e : α) (he : e ∈ es) (l : List α) :
    upsertNamed key e (foldUpsert key es l) = foldUpsert key es l := by
  obtain ⟨s, t, rfl⟩ := List.append_of_mem he
  have ht : ∀ f ∈ t, key f ≠ key e := by
    rw [List.map_append, List.map_cons, List.nodup_append] at hnd
    obtain ⟨-, hnd2, -⟩ := hnd
    rw [List.nodup_cons] at hnd2
    exact fun f hf heq => hnd2.1 (heq ▸ List.mem_map_of_mem key hf)
  simp only [foldUpsert, List.foldl_append, List.foldl_cons]
  exact foldUpsert_absorb key e t ht _ (upsertNamed_idem key e _)

theorem foldUpsert_idem {α : Type} (key : α → String) (es : List α)
    (hnd : (es.map key).Nodup) (l : List α) :
    foldUpsert key es (foldUpsert key es l) = foldUpsert key es l := by
  induction es generalizing l with
  | nil => simp [foldUpsert]
  | cons e fs ih =>
    simp only [List.map_cons, List.nodup_cons] at hnd
    have hne : ∀ f ∈ fs, key f ≠ key e :=
      fun f hf heq => hnd.1 (heq ▸ List.mem_map_of_mem key hf)
    simp only [foldUpsert, List.foldl_cons]
    have habs := foldUpsert_absorb key e fs hne (upsertNamed key e l) (upsertNamed_idem key e l)
    simp only [foldUpsert] at habs
    rw [habs]
    have := ih hnd.2 (upsertNamed key e l)
    simpa [foldUpsert] using this

theorem mem_keys_upsertNamed {α : Type} (key : α → String) (e : α) (l : List α)
    (a : String) (ha : a ∈ (upsertNamed key e l).map key) :
    a = key e ∨ a ∈ l.map key := by
  induction l with
  | nil => simpa [upsertNamed] using ha
  | cons x xs ih =>
    cases hx : key x == key e with
    | true =>
      simp only [upsertNamed, hx, if_true, List.map_cons, List.mem_cons] at ha
      rcases ha with h | h
      · exact Or.inl h
      · exact Or.inr (List.mem_cons_of_mem _ h)
    | false =>
      simp only [upsertNamed, hx, Bool.false_eq_true, if_false, List.map_cons,
        List.mem_cons] at ha
      rcases ha with h | h
      · exact Or.inr (by simp [h])
      · rcases ih h with h2 | h2
        · exact Or.inl h2
        · exact Or.inr (List.mem_cons_of_mem _ h2)

theorem keys_nodup_upsertNamed {α : Type} (key : α → String) (e : α) (l : List α)
    (h : (l.map key).Nodup) : ((upsertNamed key e l).map key).Nodup := by
  induction l with
  | nil => simp [upsertNamed]
  | cons x xs ih =>
    simp only [List.map_cons, List.nodup_cons] at h
    cases hx : key x == key e with
    | true =>
      simp only [upsertNamed, hx, if_true, List.map_cons, List.nodup_cons]
      exact ⟨eq_of_beq hx ▸ h.1, h.2⟩
    | false =>
      simp only [upsertNamed, hx, Bool.false_eq_true, if_false, List.map_cons,
        List.nodup_cons]
      refine ⟨?_, ih h.2⟩
      intro hmem
      rcases mem_keys_upsertNamed key e xs (key x) hmem with h2 | h2
      · exact absurd h2 (by simpa using hx)
      · exact h.1 h2

theorem keys_nodup_foldUpsert {α : Type} (key : α → String) (es l : List α)
    (h : (l.map key).Nodup) : ((foldUpsert key es l).map key).Nodup := by
  induction es generalizing l with
  | nil => simpa [foldUpsert]
  | cons e fs ih =>
    simp only [foldUpsert, List.foldl_cons]
    exact ih _ (keys_nodup_upsertNamed key e l h)

theorem filter_key_eq_nil {α : Type} (key : α → String) (e : α) (l : List α)
    (h : key e ∉ l.map key) : l.filter (fun x => key x == key e) = [] := by
  induction l with
  | nil => rfl
  | cons x xs ih =>
    simp only [List.map_cons, List.mem_cons] at h
    push_neg at h
    have hx : (key x == key e) = false := beq_false_of_ne (fun hh => h.1 hh.symm)
    simp [List.filter, hx, ih h.2]

theorem absorb_filter_singleton {α : Type} (key : α → String) (e : α) (l : List α)
    (hnd : (l.map key).Nodup) (habs : upsertNamed key e l = l) :
    l.filter (fun x => key x == key e) = [e] := by
  induction l with
  | nil => exact absurd habs (by simp [upsertNamed])
  | cons x xs ih =>
    simp only [List.map_cons, List.nodup_cons] at hnd
    cases hx : key x == key e with
    | true =>
      have h := habs
      simp only [upsertNamed, hx, if_true] at h
      injection h with hex _
      have hnot : key e ∉ xs.map key := eq_of_beq hx ▸ hnd.1
      simp only [List.filter_cons, hx, if_true]
      rw [filter_key_eq_nil key e xs hnot, hex]
    | false =>
      have h := habs
      simp only [upsertNamed, hx, if_false] at h
      injection h with _ habs'
      simp [List.filter, hx, ih hnd.2 habs']

/-- Normal form of `mergePreset` when the label-gate passes. -/
theorem mergePreset_eq_of_match (labels : List (String × String)) (spec : PodSpec)
    (preset : Preset) (h : presetMatches preset labels = true) :
    mergePreset labels spec preset =
      { containers := spec.containers.map fun c =>
          { env := mergePresetEnv preset.env c.env,
            volumeMounts := mergePresetMounts preset.volumeMounts c.volumeMounts },
        volumes := mergePresetVolumes preset.volumes spec.volumes,
        nodeSelector := spec.nodeSelector } := by
  unfold mergePreset
  rw [if_pos h]
  simp only [List.map_map]
  rfl

/-! ## Claim C8 -/

/-- **C8.** The preset merge modifies the job only if every key in the
preset's label-gate exists in the job's labels with an identical value
(a job carrying additional labels not mentioned by the gate still
matches, since only the gated pairs are constrained); if the gate fails
the job's runtime specification is left entirely unchanged. -/
theorem mergePreset_gate (labels : List (String × String)) (spec : PodSpec) (preset : Preset) :
    (presetMatches preset labels = true ↔
      ∀ lv ∈ preset.labels, labels.lookup lv.1 = some lv.2) ∧
    (presetMatches preset labels = false → mergePreset labels spec preset = spec) := by
  constructor
  · simp [presetMatches, List.all_eq_true]
  · intro h
    unfold mergePreset
    rw [if_neg (by simp [h])]

theorem mergePreset_gate_witness :
    mergePreset [] { containers := [], volumes := [], nodeSelector := none }
        { labels := [("preset-x", "true")], env := [], volumes := [], volumeMounts := [] } =
      { containers := [], volumes := [], nodeSelector := none } :=
  (mergePreset_gate [] { containers := [], volumes := [], nodeSelector := none }
    { labels := [("preset-x", "true")], env := [], volumes := [], volumeMounts := [] }).2
    (by decide)

/-! ## Claim C4 -/

/-- **C4.** For every job runtime specification and every preset whose
label-gate the job's labels satisfy (with the data-model invariant that
environment, volume and volume-mount lists are keyed by name, i.e.
their name lists have no duplicates), applying the preset twice yields
the same spec as applying it once, and each container's environment
ends with exactly one entry per preset variable name holding the
preset's value. -/
theorem mergePreset_idempotent (labels : List (String × String)) (spec : PodSpec)
    (preset : Preset)
    (hmatch : presetMatches preset labels = true)
    (hpe : (preset.env.map EnvVar.name).Nodup)
    (hpv : (preset.volumes.map Volume.name).Nodup)
    (hpm : (preset.volumeMounts.map VolumeMount.name).Nodup)
    (hce : ∀ c ∈ spec.containers, (c.env.map EnvVar.name).Nodup) :
    mergePreset labels (mergePreset labels spec preset) preset =
      mergePreset labels spec preset ∧
    ∀ c ∈ (mergePreset labels spec preset).containers, ∀ e ∈ preset.env,
      c.env.filter (fun x => x.name == e.name) = [{ name := e.name, value := e.value }] := by
  have hNF := mergePreset_eq_of_match labels spec preset hmatch
  constructor
  · rw [hNF, mergePreset_eq_of_match labels _ preset hmatch]
    have hvol : mergePresetVolumes preset.volumes
          (mergePresetVolumes preset.volumes spec.volumes) =
        mergePresetVolumes preset.volumes spec.volumes :=
      foldUpsert_idem Volume.name preset.volumes hpv spec.volumes
    have hcont : ∀ c : Container,
        mergePresetEnv preset.env (mergePresetEnv preset.env c.env) =
          mergePresetEnv preset.env c.env ∧
        mergePresetMounts preset.volumeMounts
            (mergePresetMounts preset.volumeMounts c.volumeMounts) =
          mergePresetMounts preset.volumeMounts c.volumeMounts := by
      intro c
      constructor
      · rw [mergePresetEnv_eq, mergePresetEnv_eq]
        exact foldUpsert_idem EnvVar.name preset.env hpe c.env
      · exact foldUpsert_idem VolumeMount.name preset.volumeMounts hpm c.volumeMounts
    simp only [List.map_map, PodSpec.mk.injEq]
    refine ⟨?_, hvol, trivial⟩
    apply List.map_congr_left
    intro c _
    simp only [Function.comp_apply]
    rw [(hcont c).1, (hcont c).2]
  · intro c hc e he
    rw [hNF] at hc
    simp only [List.mem_map] at hc
    obtain ⟨c0, hc0, rfl⟩ := hc
    show (mergePresetEnv preset.env c0.env).filter (fun x => x.name == e.name) =
      [{ name := e.name, value := e.value }]
    rw [mergePresetEnv_eq]
    have h1 := keys_nodup_foldUpsert EnvVar.name preset.env c0.env (hce c0 hc0)
    have h2 := foldUpsert_mem_absorb EnvVar.name preset.env hpe e he c0.env
    have h3 := absorb_filter_singleton EnvVar.name e _ h1 h2
    rw [h3]

theorem mergePreset_idempotent_witness :
    mergePreset [("p", "x")]
        (mergePreset [("p", "x")]
          { containers := [{ env := [⟨"FOO", "old"⟩], volumeMounts := [] }],
            volumes := [], nodeSelector := none }
          { labels := [("p", "x")], env := [⟨"FOO", "bar"⟩],
            volumes := [⟨"vol", "src"⟩], volumeMounts := [⟨"vol", "path"⟩] })
        { labels := [("p", "x")], env := [⟨"FOO", "bar"⟩],
          volumes := [⟨"vol", "src"⟩], volumeMounts := [⟨"vol", "path"⟩] } =
      mergePreset [("p", "x")]
        { containers := [{ env := [⟨"FOO", "old"⟩], volumeMounts := [] }],
          volumes := [], nodeSelector := none }
        { labels := [("p", "x")], env := [⟨"FOO", "bar"⟩],
          volumes := [⟨"vol", "src"⟩], volumeMounts := [⟨"vol", "path"⟩] } :=
  (mergePreset_idempotent [("p", "x")]
    { containers := [{ env := [⟨"FOO", "old"⟩], volumeMounts := [] }],
      volumes := [], nodeSelector := none }
    { labels := [("p", "x")], env := [⟨"FOO", "bar"⟩],
      volumes := [⟨"vol", "src"⟩], volumeMounts := [⟨"vol", "path"⟩] }
    (by decide) (by decide) (by decide) (by decide) (by decide)).1

end Genjobs
